import Mathlib

/-!
Verification of the FHIRPath indexing pipeline (`src/indexer.ts`, `src/types.ts`).

The external FHIRPath evaluator (`fhirpath.evaluate`) and `JSON.parse` are
black-box collaborators at the system boundary; they are modelled as function
parameters returning `Except String _` (an exception-throwing call).  Everything
else — expression extraction, filter projection, row construction, NDJSON
ingestion, and client-side batching — is embedded directly from the TypeScript
source.
-/

set_option autoImplicit false

namespace Indexer

/-- Dynamic JSON-compatible values manipulated by the indexer (records parsed
from NDJSON, evaluator results, filter values).  Numbers are modelled as `Int`;
no claim depends on non-integral numerics.  JS `undefined` and `null` are
collapsed into `Value.null`: the indexer only ever distinguishes them from
actual data, never from each other. -/
inductive Value where
  | null : Value
  | bool : Bool → Value
  | num : Int → Value
  | str : String → Value
  | arr : List Value → Value
  | obj : List (String × Value) → Value

/-- JS truthiness of a `Value`, as used by `||` defaulting in the source
(`resource.id || 'unknown'`). -/
def jsTruthy : Value → Bool
  | .null => false
  | .bool b => b
  | .num n => n != 0
  | .str s => s != ""
  | .arr _ => true
  | .obj _ => true

/-- JS `a || b`. -/
def jsOr (a b : Value) : Value := if jsTruthy a then a else b

/-- JS property access `v[name]` on a record; a missing field yields
`undefined`, collapsed to `Value.null` (claims only quantify over object
records, so the `null.field` TypeError path is never reached). -/
def jsGetField (v : Value) (name : String) : Value :=
  match v with
  | .obj fields => ((fields.lookup name).getD Value.null)
  | _ => Value.null

/-- `true` exactly on `Value.null`, i.e. the JS test
`x === null || x === undefined`. -/
def isNullValue : Value → Bool
  | .null => true
  | _ => false

/-- Minimal JSON string escaping used by `JSON.stringify` for the fields the
claims inspect; exact escaping of control characters is not claim-relevant. -/
def escapeJsonString (s : String) : String :=
  s.toList.foldl (fun acc c =>
    if c = '\\' then acc ++ "\\\\"
    else if c = '"' then acc ++ "\\\""
    else acc.push c) ""

mutual

/-- `JSON.stringify` over the `Value` model. -/
def jsonStringify : Value → String
  | .null => "null"
  | .bool true => "true"
  | .bool false => "false"
  | .num n => toString n
  | .str s => "\"" ++ escapeJsonString s ++ "\""
  | .arr xs => "[" ++ jsonStringifyArray xs ++ "]"
  | .obj fs => "\x7b" ++ jsonStringifyFields fs ++ "\x7d"

/-- Comma-joined serialization of array elements. -/
def jsonStringifyArray : List Value → String
  | [] => ""
  | [x] => jsonStringify x
  | x :: xs => jsonStringify x ++ "," ++ jsonStringifyArray xs

/-- Comma-joined serialization of object fields. -/
def jsonStringifyFields : List (String × Value) → String
  | [] => ""
  | [(k, v)] => "\"" ++ escapeJsonString k ++ "\":" ++ jsonStringify v
  | (k, v) :: fs =>
      "\"" ++ escapeJsonString k ++ "\":" ++ jsonStringify v ++ "," ++ jsonStringifyFields fs

end

/-! ## View definition schema (`src/types.ts`) -/

/-- `ViewVariable.type` in `types.ts`: `"filter" | "param"`. -/
inductive VarType where
  | filter : VarType
  | param : VarType
deriving DecidableEq, Repr

/-- `ViewVariable` from `types.ts`.  Optional string fields are `Option String`;
JS truthiness of a present-but-empty string is handled at use sites. -/
structure ViewVariable where
  name : String
  type : VarType
  optionsExpression : Option String := none
  valueExpression : Option String := none
  defaultValue : Option String := none
deriving DecidableEq, Repr

/-- `ViewColumn` from `types.ts`. -/
structure ViewColumn where
  header : String
  path : String
  link : Option String := none
deriving DecidableEq, Repr

/-- `ViewBlock` from `types.ts`, a tagged union over the four block variants.
An absent `variables` array behaves identically to an empty one (JS iterates
`[]` zero times and the `filters.length > 0` guard discards the empty result),
so `variables` is a plain list with `[]` for absent. -/
inductive ViewBlock where
  | markdown (content : String) : ViewBlock
  | fhirpathTable (expression : String) (vars : List ViewVariable)
      (columns : List ViewColumn) : ViewBlock
  | fhirpathList (expression : String) (vars : List ViewVariable)
      (itemTemplate : String) : ViewBlock
  | fhirpathSingle (expression : String) (vars : List ViewVariable)
      (template : String) : ViewBlock
deriving DecidableEq, Repr

/-- `ViewDefinition` from `types.ts`. -/
structure ViewDefinition where
  id : String
  title : String
  params : List String := []
  blocks : List ViewBlock
deriving DecidableEq, Repr

/-- `ViewRegistry` from `types.ts`. -/
structure ViewRegistry where
  views : List ViewDefinition
deriving DecidableEq, Repr

/-- The `expression` of a block, `none` for markdown blocks. -/
def blockExpression? : ViewBlock → Option String
  | .markdown _ => none
  | .fhirpathTable e _ _ => some e
  | .fhirpathList e _ _ => some e
  | .fhirpathSingle e _ _ => some e

/-- The `variables` of a block (`[]` for markdown, which carries none). -/
def blockVariables : ViewBlock → List ViewVariable
  | .markdown _ => []
  | .fhirpathTable _ vs _ => vs
  | .fhirpathList _ vs _ => vs
  | .fhirpathSingle _ vs _ => vs

/-! ## Index-side record types (`src/types.ts`) -/

/-- `FilterToIndex` from `types.ts`. -/
structure FilterToIndex where
  name : String
  valueExpression : String
deriving DecidableEq, Repr

/-- A `{name, path}` column projection attached to an `ExpressionToIndex`. -/
structure Projection where
  name : String
  path : String
deriving DecidableEq, Repr

/-- `ExpressionToIndex` from `types.ts`. -/
structure ExpressionToIndex where
  id : String
  expression : String
  projections : Option (List Projection) := none
  filters : Option (List FilterToIndex) := none
deriving DecidableEq, Repr

/-- `FhirpathIndexRow` from `types.ts`.  The two `source_resource_*` fields are
declared `string` in TypeScript, but the untyped `resource: any` lets any JSON
value flow into them at runtime, so they are modelled as `Value`. -/
structure FhirpathIndexRow where
  expression_id : String
  source_resource_id : Value
  source_resource_type : Value
  source_path : String
  value_json : String
  filter_values_json : Option String

/-- A result of `evaluateWithPaths`: one matched value plus its provenance
path (`null` when the evaluator yields a primitive with no origin node). -/
structure ResultItem where
  path : Option String
  value : Value

/-! ## NDJSON ingestion (`readNdjson`, `indexer.ts` lines 186–198) -/

/-- JS whitespace characters removed by `String.prototype.trim`, restricted to
those expressible in NDJSON lines. -/
def jsWhitespace (c : Char) : Bool :=
  c = ' ' || c = '\t' || c = '\n' || c = '\r' || c = '\x0b' ||
  c = '\x0c' || c = ' ' || c = '﻿'

/-- The truthiness test `if (line.trim())` in `readNdjson`: a line passes iff
it contains at least one non-whitespace character. -/
def lineIsBlank (line : String) : Bool :=
  line.toList.all jsWhitespace

/-- `readNdjson` (lines 186–198): yields `JSON.parse(line)` for every
non-blank line; a `JSON.parse` throw propagates out of the generator, aborting
the stream (modelled as `Except.error`).  Blank lines are skipped. -/
def readNdjson (parseJson : String → Except String Value) :
    List String → Except String (List Value)
  | [] => .ok []
  | line :: rest =>
    if lineIsBlank line then readNdjson parseJson rest
    else
      match parseJson line with
      | .error e => .error e
      | .ok v =>
        match readNdjson parseJson rest with
        | .error e => .error e
        | .ok vs => .ok (v :: vs)

/-! ## Client-side batching (`runIndexer`, lines 309–366) -/

/-- The fixed client-side batch threshold (`const BATCH_SIZE = 1000`). -/
def BATCH_SIZE : Nat := 1000

/-- One step of the batching loop: push the row, then flush the batch into the
database (via `insertMany`, which inserts the batch's rows in order inside a
transaction) once `batch.length >= BATCH_SIZE`.  State is
`(rows already inserted, pending batch)`. -/
def batchStep (batchSize : Nat)
    (st : List FhirpathIndexRow × List FhirpathIndexRow)
    (row : FhirpathIndexRow) : List FhirpathIndexRow × List FhirpathIndexRow :=
  let batch := st.2 ++ [row]
  if batchSize ≤ batch.length then (st.1 ++ batch, []) else (st.1, batch)

/-- The rows present in the database after streaming `rows` through the
batching loop with threshold `batchSize`, including the final
`if (batch.length > 0) insertMany(batch)` flush. -/
def runBatchedInsertsWith (batchSize : Nat) (rows : List FhirpathIndexRow) :
    List FhirpathIndexRow :=
  let st := rows.foldl (batchStep batchSize) ([], [])
  if 0 < st.2.length then st.1 ++ st.2 else st.1

/-- The batching loop as written in `runIndexer`, at `BATCH_SIZE = 1000`. -/
def runBatchedInserts (rows : List FhirpathIndexRow) : List FhirpathIndexRow :=
  runBatchedInsertsWith BATCH_SIZE rows

/-! ## Path-provenance adapter (`evaluateWithPaths`, lines 50–64) -/

/-- The external evaluator call made by `evaluateWithPaths`:
`fhirpath.evaluate(resource, wrapped, null, r4Model, {userInvocationTable})`.
The `.getPath()` user function maps every output node to a `{path, value}`
pair, so the black box returns `ResultItem`s; a throw is `Except.error`. -/
abbrev PathEvaluator := Value → String → Except String (List ResultItem)

/-- The external evaluator call made by `evaluateSimple`:
`fhirpath.evaluate(resource, expression, null, r4Model)`. -/
abbrev SimpleEvaluator := Value → String → Except String (List Value)

/-- `evaluateWithPaths` (lines 50–64): wraps the expression as
`(<expression>).getPath()`, delegates to the evaluator, and catches any throw
by logging and returning the empty sequence. -/
def evaluateWithPaths (pathEval : PathEvaluator) (resource : Value)
    (expression : String) : List ResultItem :=
  match pathEval resource ("(" ++ expression ++ ").getPath()") with
  | .ok results => results
  | .error _ => []

/-- `evaluateSimple` (lines 77–90): plain evaluation returning the first
result, with `null` for an empty result set or a throw. -/
def evaluateSimple (simpleEval : SimpleEvaluator) (resource : Value)
    (expression : String) : Value :=
  match simpleEval resource expression with
  | .ok [] => Value.null
  | .ok (v :: _) => v
  | .error _ => Value.null

/-! ## Unbound-variable detection (`hasUnboundVariables`, lines 69–72) -/

/-- Word characters for the regex word-boundary assertion `\b`. -/
def isWordChar (c : Char) : Bool :=
  c.isAlpha || c.isDigit || c = '_'

/-- Whether a character list starts with the literal `resource` followed by a
word boundary, i.e. satisfies the lookahead pattern `resource\b`. -/
def startsWithResourceWordB (cs : List Char) : Bool :=
  match cs with
  | 'r' :: 'e' :: 's' :: 'o' :: 'u' :: 'r' :: 'c' :: 'e' :: rest =>
    match rest with
    | [] => true
    | c :: _ => !isWordChar c
  | _ => false

/-- A match of `(?!resource\b)[a-zA-Z]` at the position right after a `%`. -/
def unboundAfterPercent (cs : List Char) : Bool :=
  match cs with
  | [] => false
  | c :: _ => c.isAlpha && !startsWithResourceWordB cs

/-- Scan of the regex `%(?!resource\b)[a-zA-Z]` over every position. -/
def hasUnboundVariablesAux : List Char → Bool
  | [] => false
  | '%' :: rest => unboundAfterPercent rest || hasUnboundVariablesAux rest
  | _ :: rest => hasUnboundVariablesAux rest

/-- `hasUnboundVariables` (lines 69–72): tests
`/%(?!resource\b)[a-zA-Z]/` against the expression, i.e. matches `%varname`
but not `%resource` (which is bound to the current context). -/
def hasUnboundVariables (expression : String) : Bool :=
  hasUnboundVariablesAux expression.toList

/-! ## Filter projector (`extractFilterValues`, lines 95–109) -/

/-- JS object assignment `o[k] = v` on an insertion-ordered object: replaces
the value at an existing key in place, otherwise appends the new key. -/
def setKey : List (String × Value) → String → Value → List (String × Value)
  | [], k, v => [(k, v)]
  | (k', v') :: rest, k, v =>
    if k' = k then (k, v) :: rest else (k', v') :: setKey rest k v

/-- The body of the filter loop of `extractFilterValues` (lines 100–106):
evaluate the filter's `valueExpression` on the result value and record the
outcome under the filter's name unless it is null/undefined. -/
def filterStep (simpleEval : SimpleEvaluator) (value : Value)
    (acc : List (String × Value)) (filter : FilterToIndex) :
    List (String × Value) :=
  let filterValue := evaluateSimple simpleEval value filter.valueExpression
  if isNullValue filterValue then acc else setKey acc filter.name filterValue

/-- `extractFilterValues` (lines 95–109): evaluates each filter's
`valueExpression` against the already-extracted result value, keeps non-null
results keyed by filter name, and returns `null` rather than an empty
object. -/
def extractFilterValues (simpleEval : SimpleEvaluator) (value : Value)
    (filters : List FilterToIndex) : Option (List (String × Value)) :=
  if filters.length = 0 then none
  else
    let result := filters.foldl (filterStep simpleEval value) []
    if 0 < result.length then some result else none

/-! ## Expression extractor (`extractExpressions`, lines 114–181) -/

/-- JS truthiness of an optional string field (`undefined` and `""` are both
falsy). -/
def optStrTruthy : Option String → Bool
  | none => false
  | some s => s != ""

/-- The mutable state of `extractExpressions`: the accumulated `expressions`
array and the `seen` set, modelled as the insertion-ordered list of strings
added to it (only membership is ever consulted). -/
structure ExtractState where
  expressions : List ExpressionToIndex
  seen : List String

/-- The `filters` array collected from a block's variables (lines 147–156):
every variable of kind `filter` with a truthy `valueExpression`, in order. -/
def blockFilters (block : ViewBlock) : List FilterToIndex :=
  (blockVariables block).foldl (fun fs v =>
    if (v.type == VarType.filter) && optStrTruthy v.valueExpression then
      fs ++ [⟨v.name, v.valueExpression.getD ""⟩]
    else fs) []

/-- The `ExpressionToIndex` pushed when a block's expression is first seen
(lines 133–162): id `expr_<current array length>`, column projections for
table blocks, and the block's filters when nonempty. -/
def mkToIndex (st : ExtractState) (block : ViewBlock) (expr : String) :
    ExpressionToIndex :=
  let projections := match block with
    | .fhirpathTable _ _ columns =>
        some (columns.map fun col => ⟨col.header, col.path⟩)
    | _ => none
  let filters := blockFilters block
  { id := "expr_" ++ toString st.expressions.length,
    expression := expr,
    projections := projections,
    filters := if 0 < filters.length then some filters else none }

/-- The body of the options-expression loop (lines 167–175): a truthy,
not-yet-seen `optionsExpression` is pushed as an independent top-level
expression with the next sequential id. -/
def optionsStep (s : ExtractState) (v : ViewVariable) : ExtractState :=
  match v.optionsExpression with
  | some oe =>
    if oe != "" && !s.seen.contains oe then
      { expressions := s.expressions ++
          [{ id := "expr_" ++ toString s.expressions.length, expression := oe }],
        seen := s.seen ++ [oe] }
    else s
  | none => s

/-- The options-expression pass over a block's variables (lines 166–176). -/
def addOptionsExpressions (st : ExtractState) (vs : List ViewVariable) :
    ExtractState :=
  vs.foldl optionsStep st

/-- The body of the block loop of `extractExpressions` (lines 119–177):
markdown blocks and blocks whose expression has unbound variables are skipped
entirely (`continue`); otherwise the expression is deduplicated against
`seen` and the options pass runs. -/
def processBlock (st : ExtractState) (block : ViewBlock) : ExtractState :=
  match blockExpression? block with
  | none => st
  | some expr =>
    if hasUnboundVariables expr then st
    else
      let st1 :=
        if st.seen.contains expr then st
        else { expressions := st.expressions ++ [mkToIndex st block expr],
               seen := st.seen ++ [expr] }
      addOptionsExpressions st1 (blockVariables block)

/-- `extractExpressions` (lines 114–181): the nested view/block loops over
the registry, starting from an empty array and an empty seen-set. -/
def extractExpressions (registry : ViewRegistry) : List ExpressionToIndex :=
  (registry.views.foldl
    (fun (st : ExtractState) (view : ViewDefinition) =>
      view.blocks.foldl processBlock st)
    { expressions := [], seen := [] }).expressions

/-! ## Index materializer (`runIndexer`, lines 325–361) -/

/-- Construction of one `FhirpathIndexRow` from one result item
(lines 337–350). -/
def rowOfResult (simpleEval : SimpleEvaluator) (expr : ExpressionToIndex)
    (resource : Value) (result : ResultItem) : FhirpathIndexRow :=
  let filterValues := match expr.filters with
    | some fs => extractFilterValues simpleEval result.value fs
    | none => none
  { expression_id := expr.id,
    source_resource_id := jsOr (jsGetField resource "id") (Value.str "unknown"),
    source_resource_type :=
      jsOr (jsGetField resource "resourceType") (Value.str "unknown"),
    source_path := result.path.getD "",
    value_json := jsonStringify result.value,
    filter_values_json := filterValues.map (fun fs => jsonStringify (Value.obj fs)) }

/-- The rows appended for one (record, expression) pair: one per item of the
`evaluateWithPaths` result sequence (lines 334–360). -/
def rowsFor (pathEval : PathEvaluator) (simpleEval : SimpleEvaluator)
    (expr : ExpressionToIndex) (resource : Value) : List FhirpathIndexRow :=
  (evaluateWithPaths pathEval resource expr.expression).map
    (rowOfResult simpleEval expr resource)

/-- All rows appended for one record: every extracted expression in turn. -/
def processRecord (pathEval : PathEvaluator) (simpleEval : SimpleEvaluator)
    (exprs : List ExpressionToIndex) (resource : Value) : List FhirpathIndexRow :=
  exprs.flatMap fun expr => rowsFor pathEval simpleEval expr resource

/-- The record-streaming loop of `runIndexer` (lines 325–361) fused with the
lazy `readNdjson` generator it consumes: each non-blank line is parsed,
counted and indexed in stream order; a `JSON.parse` throw propagates out of
the generator and rejects the whole run.  Returns the produced rows in
insertion order together with the processed-record count. -/
def runIndexerStream (parseJson : String → Except String Value)
    (pathEval : PathEvaluator) (simpleEval : SimpleEvaluator)
    (exprs : List ExpressionToIndex) :
    List String → Except String (List FhirpathIndexRow × Nat)
  | [] => .ok ([], 0)
  | line :: rest =>
    if lineIsBlank line then runIndexerStream parseJson pathEval simpleEval exprs rest
    else
      match parseJson line with
      | .error e => .error e
      | .ok resource =>
        match runIndexerStream parseJson pathEval simpleEval exprs rest with
        | .error e => .error e
        | .ok (rows, count) =>
          .ok (processRecord pathEval simpleEval exprs resource ++ rows, count + 1)

/-- The CLI rejection handler (lines 398–401): a rejected `runIndexer`
promise exits the process with code 1, a completed run with code 0. -/
def exitCodeOf {α : Type} : Except String α → Nat
  | .error _ => 1
  | .ok _ => 0

/-! ## Schema bootstrap (`initDatabase`, lines 203–245) -/

/-- One column of a `CREATE TABLE` statement: name and NOT NULL constraint. -/
structure ColumnSpec where
  name : String
  notNull : Bool
deriving DecidableEq, Repr

/-- The `fhirpath_index` table schema (lines 212–220): `source_path` and
`filter_values_json` are nullable, every other column is `NOT NULL`. -/
def fhirpathIndexColumns : List ColumnSpec :=
  [⟨"expression_id", true⟩, ⟨"source_resource_id", true⟩,
   ⟨"source_resource_type", true⟩, ⟨"source_path", false⟩,
   ⟨"value_json", true⟩, ⟨"filter_values_json", false⟩]

/-! ## Derived characterizations and invariant vocabulary -/

/-- Claim-side restatement of the filter projection: each filter whose
`valueExpression` evaluates (in simple mode, first result) to a non-null
value contributes a `(name, value)` pair, in filter order.  Proved equal to
the fold in `extractFilterValues` for duplicate-free filter names. -/
def filterValuesSpec (simpleEval : SimpleEvaluator) (value : Value)
    (filters : List FilterToIndex) : List (String × Value) :=
  filters.filterMap fun f =>
    let v := evaluateSimple simpleEval value f.valueExpression
    if isNullValue v then none else some (f.name, v)

/-- Sequential synthetic ids: the `i`-th entry of the list carries id
`expr_<n + i>`. -/
def idsFrom : Nat → List ExpressionToIndex → Prop
  | _, [] => True
  | n, e :: rest => e.id = "expr_" ++ toString n ∧ idsFrom (n + 1) rest

/-- Loop invariant of `extractExpressions`: the accumulated entries'
expression strings are exactly the `seen` set in insertion order, ids are
sequential from 0, and no string was added to `seen` twice. -/
def ExtractInv (st : ExtractState) : Prop :=
  st.expressions.map ExpressionToIndex.expression = st.seen ∧
  idsFrom 0 st.expressions ∧
  st.seen.Nodup

/-- Every `optionsExpression` string carried by any variable of any block of
the registry. -/
def registryOptionsExpressions (registry : ViewRegistry) : List String :=
  registry.views.flatMap fun view =>
    view.blocks.flatMap fun block =>
      (blockVariables block).filterMap ViewVariable.optionsExpression

/-! ## Concrete registries used to instantiate the general theorems -/

/-- Registry whose two structurally distinct blocks reference the same
expression string `name`. -/
def c2Registry : ViewRegistry :=
  { views := [
    { id := "v", title := "t", blocks := [
        ViewBlock.fhirpathList "name" [] "t",
        ViewBlock.fhirpathSingle "name" [] "t"] }] }

/-- Registry with one block whose filter variable carries an
`optionsExpression` referencing the unbound external variable `%st`. -/
def c3Registry : ViewRegistry :=
  { views := [
    { id := "v", title := "t", blocks := [
        ViewBlock.fhirpathList "name"
          [⟨"status", VarType.filter, some "%st.distinct()", none, none⟩] "t"] }] }

/-- Registry whose two blocks share the expression `name`; only the second
block carries a filter variable with a `valueExpression`. -/
def c4Registry : ViewRegistry :=
  { views := [
    { id := "v", title := "t", blocks := [
        ViewBlock.fhirpathList "name" [] "t",
        ViewBlock.fhirpathList "name"
          [⟨"f", VarType.filter, none, some "status", none⟩] "t"] }] }

/-- Invariant of the batching loop: inserted rows plus the pending batch are
exactly the initial contents followed by every streamed row, in order. -/
theorem batchStep_foldl_inv (batchSize : Nat) (rows : List FhirpathIndexRow) :
    ∀ st : List FhirpathIndexRow × List FhirpathIndexRow,
      (rows.foldl (batchStep batchSize) st).1 ++ (rows.foldl (batchStep batchSize) st).2
        = st.1 ++ st.2 ++ rows := by
  induction rows with
  | nil => intro st; simp
  | cons r rs ih =>
    intro st
    simp only [List.foldl_cons]
    rw [ih]
    unfold batchStep
    by_cases hb : batchSize ≤ st.2.length + 1 <;> simp [hb]

/-- The batching loop is the identity on the row stream, for any threshold. -/
theorem runBatchedInsertsWith_eq_id (batchSize : Nat)
    (rows : List FhirpathIndexRow) :
    runBatchedInsertsWith batchSize rows = rows := by
  have h := batchStep_foldl_inv batchSize rows ([], [])
  simp only [List.nil_append] at h
  unfold runBatchedInsertsWith
  by_cases h2 : 0 < (rows.foldl (batchStep batchSize) ([], [])).2.length
  · simpa [h2] using h
  · have h3 : (rows.foldl (batchStep batchSize) ([], [])).2 = [] :=
      List.length_eq_zero.mp (Nat.le_zero.mp (Nat.not_lt.mp h2))
    rw [h3, List.append_nil] at h
    simpa [h2] using h

/-- C6: the client-side batching of the Index Materializer — flush once the
batch reaches the fixed size of 1000 rows, one final flush for any remainder —
inserts exactly the same rows in the same order as inserting each row
immediately upon production, and the batch size does not change the final
row list. -/
theorem c6_batching_preserves_rows (rows : List FhirpathIndexRow) :
    runBatchedInserts rows = rows ∧
    ∀ batchSize : Nat, runBatchedInsertsWith batchSize rows = rows :=
  ⟨runBatchedInsertsWith_eq_id BATCH_SIZE rows,
   fun batchSize => runBatchedInsertsWith_eq_id batchSize rows⟩

/-- C10: a line that is empty or consists only of whitespace is skipped
silently: it yields no record, raises no error, and leaves the produced rows
and the processed-record count unchanged. -/
theorem c10_blank_lines_skipped (parseJson : String → Except String Value)
    (pathEval : PathEvaluator) (simpleEval : SimpleEvaluator)
    (exprs : List ExpressionToIndex) (line : String) (rest : List String)
    (h : lineIsBlank line = true) :
    readNdjson parseJson (line :: rest) = readNdjson parseJson rest ∧
    runIndexerStream parseJson pathEval simpleEval exprs (line :: rest) =
      runIndexerStream parseJson pathEval simpleEval exprs rest := by
  constructor
  · simp [readNdjson, h]
  · simp [runIndexerStream, h]

/-- Witness for C10 at the two-space line with an always-failing parser. -/
theorem c10_blank_lines_skipped_witness :
    readNdjson (fun _ => Except.error "bad") ["  "] =
      readNdjson (fun _ => Except.error "bad") ([] : List String) ∧
    runIndexerStream (fun _ => Except.error "bad")
        (fun _ _ => Except.ok []) (fun _ _ => Except.ok []) [] ["  "] =
      runIndexerStream (fun _ => Except.error "bad")
        (fun _ _ => Except.ok []) (fun _ _ => Except.ok []) [] [] :=
  c10_blank_lines_skipped (fun _ => Except.error "bad")
    (fun _ _ => Except.ok []) (fun _ _ => Except.ok []) [] "  " [] rfl

/-- A non-blank unparseable line anywhere in the stream makes `readNdjson`
surface the parse error. -/
theorem readNdjson_error_of_bad_line (parseJson : String → Except String Value)
    (lines : List String)
    (hbad : ∃ l ∈ lines, lineIsBlank l = false ∧ ∃ e, parseJson l = .error e) :
    ∃ e, readNdjson parseJson lines = .error e := by
  induction lines with
  | nil => exact absurd hbad (by simp)
  | cons line rest ih =>
    rcases hbad with ⟨l, hl, hbl, e, he⟩
    by_cases hb : lineIsBlank line = true
    · rcases List.mem_cons.mp hl with rfl | hmem
      · simp [hb] at hbl
      · rcases ih ⟨l, hmem, hbl, e, he⟩ with ⟨e2, he2⟩
        exact ⟨e2, by simp [readNdjson, hb, he2]⟩
    · rcases List.mem_cons.mp hl with rfl | hmem
      · exact ⟨e, by simp [readNdjson, hb, he]⟩
      · cases hp : parseJson line with
        | error e2 => exact ⟨e2, by simp [readNdjson, hb, hp]⟩
        | ok v =>
          rcases ih ⟨l, hmem, hbl, e, he⟩ with ⟨e2, he2⟩
          exact ⟨e2, by simp [readNdjson, hb, hp, he2]⟩

/-- A non-blank unparseable line anywhere in the stream rejects the fused
streaming run. -/
theorem runIndexerStream_error_of_bad_line
    (parseJson : String → Except String Value) (pathEval : PathEvaluator)
    (simpleEval : SimpleEvaluator) (exprs : List ExpressionToIndex)
    (lines : List String)
    (hbad : ∃ l ∈ lines, lineIsBlank l = false ∧ ∃ e, parseJson l = .error e) :
    ∃ e, runIndexerStream parseJson pathEval simpleEval exprs lines = .error e := by
  induction lines with
  | nil => exact absurd hbad (by simp)
  | cons line rest ih =>
    rcases hbad with ⟨l, hl, hbl, e, he⟩
    by_cases hb : lineIsBlank line = true
    · rcases List.mem_cons.mp hl with rfl | hmem
      · simp [hb] at hbl
      · rcases ih ⟨l, hmem, hbl, e, he⟩ with ⟨e2, he2⟩
        exact ⟨e2, by simp [runIndexerStream, hb, he2]⟩
    · rcases List.mem_cons.mp hl with rfl | hmem
      · exact ⟨e, by simp [runIndexerStream, hb, he]⟩
      · cases hp : parseJson line with
        | error e2 => exact ⟨e2, by simp [runIndexerStream, hb, hp]⟩
        | ok v =>
          rcases ih ⟨l, hmem, hbl, e, he⟩ with ⟨e2, he2⟩
          refine ⟨e2, ?_⟩
          simp only [runIndexerStream, hb, if_false, hp, he2]
          simp

/-- C8: an input stream containing a non-blank line that is not valid JSON
surfaces a fatal parse error: `readNdjson` propagates the error, the
streaming run is rejected rather than skipping the line, and the CLI handler
turns the rejection into a non-zero exit code. -/
theorem c8_malformed_line_aborts_build
    (parseJson : String → Except String Value) (pathEval : PathEvaluator)
    (simpleEval : SimpleEvaluator) (exprs : List ExpressionToIndex)
    (lines : List String)
    (hbad : ∃ l ∈ lines, lineIsBlank l = false ∧ ∃ e, parseJson l = .error e) :
    (∃ e, readNdjson parseJson lines = .error e) ∧
    (∃ e, runIndexerStream parseJson pathEval simpleEval exprs lines = .error e) ∧
    exitCodeOf (runIndexerStream parseJson pathEval simpleEval exprs lines) ≠ 0 := by
  refine ⟨readNdjson_error_of_bad_line parseJson lines hbad, ?_, ?_⟩
  · exact runIndexerStream_error_of_bad_line parseJson pathEval simpleEval exprs lines hbad
  · rcases runIndexerStream_error_of_bad_line parseJson pathEval simpleEval
      exprs lines hbad with ⟨e, he⟩
    simp [he, exitCodeOf]

/-- Witness for C8 at the single line `not json` with a parser that rejects
everything. -/
theorem c8_malformed_line_aborts_build_witness :
    (∃ e, readNdjson (fun _ => Except.error "Unexpected token") ["not json"]
      = .error e) ∧
    (∃ e, runIndexerStream (fun _ => Except.error "Unexpected token")
      (fun _ _ => Except.ok []) (fun _ _ => Except.ok []) [] ["not json"]
      = .error e) ∧
    exitCodeOf (runIndexerStream (fun _ => Except.error "Unexpected token")
      (fun _ _ => Except.ok []) (fun _ _ => Except.ok []) [] ["not json"]) ≠ 0 :=
  c8_malformed_line_aborts_build (fun _ => Except.error "Unexpected token")
    (fun _ _ => Except.ok []) (fun _ _ => Except.ok []) [] ["not json"]
    ⟨"not json", by simp, rfl, "Unexpected token", rfl⟩

/-- C1: the number of rows appended for one (record, expression) pair equals
the number of items returned by `evaluateWithPaths` for that pair; when the
evaluator throws, `evaluateWithPaths` returns the empty sequence and the pair
contributes zero rows (the model is total, so the build continues). -/
theorem c1_row_cardinality (pathEval : PathEvaluator)
    (simpleEval : SimpleEvaluator) (expr : ExpressionToIndex)
    (resource : Value) :
    (rowsFor pathEval simpleEval expr resource).length =
      (evaluateWithPaths pathEval resource expr.expression).length ∧
    (∀ e, pathEval resource ("(" ++ expr.expression ++ ").getPath()")
        = .error e →
      evaluateWithPaths pathEval resource expr.expression = [] ∧
      rowsFor pathEval simpleEval expr resource = []) := by
  refine ⟨by simp [rowsFor], fun e he => ?_⟩
  constructor
  · simp [evaluateWithPaths, he]
  · simp [rowsFor, evaluateWithPaths, he]

/-- Witness for C1 at an evaluator that always throws. -/
theorem c1_row_cardinality_witness :
    evaluateWithPaths (fun _ _ => Except.error "SyntaxError") (Value.obj [])
      "Medication.code" = [] ∧
    rowsFor (fun _ _ => Except.error "SyntaxError") (fun _ _ => Except.ok [])
      ⟨"expr_0", "Medication.code", none, none⟩ (Value.obj []) = [] :=
  (c1_row_cardinality (fun _ _ => Except.error "SyntaxError")
    (fun _ _ => Except.ok []) ⟨"expr_0", "Medication.code", none, none⟩
    (Value.obj [])).2 "SyntaxError" rfl

/-- Every row produced for a record arises from `rowOfResult` on some result
item of some expression. -/
theorem mem_processRecord (pathEval : PathEvaluator)
    (simpleEval : SimpleEvaluator) (exprs : List ExpressionToIndex)
    (resource : Value) (row : FhirpathIndexRow)
    (hrow : row ∈ processRecord pathEval simpleEval exprs resource) :
    ∃ expr result, row = rowOfResult simpleEval expr resource result := by
  rcases List.mem_flatMap.mp hrow with ⟨expr, _, hr⟩
  rcases List.mem_map.mp hr with ⟨result, _, heq⟩
  exact ⟨expr, result, heq.symm⟩

/-- C7: a source record lacking an `id` or a `resourceType` field is not
failed; every row produced for it carries the placeholder string `unknown`
in `source_resource_id` or `source_resource_type` respectively. -/
theorem c7_missing_fields_get_placeholder (pathEval : PathEvaluator)
    (simpleEval : SimpleEvaluator) (exprs : List ExpressionToIndex)
    (fields : List (String × Value)) :
    (fields.lookup "id" = none →
      ∀ row ∈ processRecord pathEval simpleEval exprs (Value.obj fields),
        row.source_resource_id = Value.str "unknown") ∧
    (fields.lookup "resourceType" = none →
      ∀ row ∈ processRecord pathEval simpleEval exprs (Value.obj fields),
        row.source_resource_type = Value.str "unknown") := by
  constructor
  · intro hid row hrow
    rcases mem_processRecord pathEval simpleEval exprs (Value.obj fields)
      row hrow with ⟨expr, result, rfl⟩
    simp [rowOfResult, jsGetField, hid, jsOr, jsTruthy]
  · intro hty row hrow
    rcases mem_processRecord pathEval simpleEval exprs (Value.obj fields)
      row hrow with ⟨expr, result, rfl⟩
    simp [rowOfResult, jsGetField, hty, jsOr, jsTruthy]

/-- Witness for C7: a record `{"code": "x"}` with no `id` and no
`resourceType`, one expression, one result item. -/
theorem c7_missing_fields_get_placeholder_witness :
    (rowOfResult (fun _ _ => Except.ok [])
      ⟨"expr_0", "code", none, none⟩ (Value.obj [("code", Value.str "x")])
      ⟨some "p", Value.str "x"⟩).source_resource_id = Value.str "unknown" :=
  (c7_missing_fields_get_placeholder
    (fun _ _ => Except.ok [⟨some "p", Value.str "x"⟩]) (fun _ _ => Except.ok [])
    [⟨"expr_0", "code", none, none⟩] [("code", Value.str "x")]).1 rfl
    (rowOfResult (fun _ _ => Except.ok [])
      ⟨"expr_0", "code", none, none⟩ (Value.obj [("code", Value.str "x")])
      ⟨some "p", Value.str "x"⟩)
    (by simp [processRecord, rowsFor, evaluateWithPaths])

/-- C9: `source_path` is populated for every produced row — a result item
with a null path is stored as the empty string, not as SQL NULL — although
the `fhirpath_index` schema would permit NULL in that column. -/
theorem c9_source_path_never_null (pathEval : PathEvaluator)
    (simpleEval : SimpleEvaluator) (expr : ExpressionToIndex)
    (resource : Value) :
    (fhirpathIndexColumns.find? (fun c => c.name == "source_path")).map
        ColumnSpec.notNull = some false ∧
    (∀ result : ResultItem, result.path = none →
      (rowOfResult simpleEval expr resource result).source_path = "") ∧
    (∀ row ∈ rowsFor pathEval simpleEval expr resource,
      ∃ result ∈ evaluateWithPaths pathEval resource expr.expression,
        row = rowOfResult simpleEval expr resource result) := by
  refine ⟨rfl, fun result h => ?_, fun row hrow => ?_⟩
  · simp [rowOfResult, h]
  · rcases List.mem_map.mp hrow with ⟨result, hmem, heq⟩
    exact ⟨result, hmem, heq.symm⟩

/-- Witness for C9 at a result item with a null path. -/
theorem c9_source_path_never_null_witness :
    (rowOfResult (fun _ _ => Except.ok []) ⟨"expr_0", "code", none, none⟩
      (Value.obj []) ⟨none, Value.str "v"⟩).source_path = "" :=
  (c9_source_path_never_null (fun _ _ => Except.ok [])
    (fun _ _ => Except.ok []) ⟨"expr_0", "code", none, none⟩
    (Value.obj [])).2.1 ⟨none, Value.str "v"⟩ rfl

/-- `isNullValue` decides equality with `Value.null`. -/
theorem isNullValue_eq_true_iff (v : Value) :
    isNullValue v = true ↔ v = Value.null := by
  cases v <;> simp [isNullValue]

/-- `setKey` on a fresh key appends the pair at the end. -/
theorem setKey_eq_append (k : String) (v : Value) :
    ∀ acc : List (String × Value), (∀ p ∈ acc, p.1 ≠ k) →
      setKey acc k v = acc ++ [(k, v)] := by
  intro acc
  induction acc with
  | nil => intro _; rfl
  | cons p rest ih =>
    intro h
    obtain ⟨k2, v2⟩ := p
    have hk : k2 ≠ k := h (k2, v2) (List.mem_cons_self _ _)
    simp [setKey, hk, ih fun q hq => h q (List.mem_cons_of_mem _ hq)]

/-- The filter fold on duplicate-free filter names, started from an
accumulator disjoint from those names, appends exactly the claim-side
projection `filterValuesSpec`. -/
theorem filterStep_foldl_eq_spec (simpleEval : SimpleEvaluator) (value : Value) :
    ∀ (filters : List FilterToIndex) (acc : List (String × Value)),
      (filters.map FilterToIndex.name).Nodup →
      (∀ p ∈ acc, ∀ f ∈ filters, p.1 ≠ f.name) →
      filters.foldl (filterStep simpleEval value) acc
        = acc ++ filterValuesSpec simpleEval value filters := by
  intro filters
  induction filters with
  | nil => intro acc _ _; simp [filterValuesSpec]
  | cons f fs ih =>
    intro acc hnd hdisj
    have hfn : f.name ∉ fs.map FilterToIndex.name := (List.nodup_cons.mp hnd).1
    have hnd2 : (fs.map FilterToIndex.name).Nodup := (List.nodup_cons.mp hnd).2
    simp only [List.foldl_cons]
    by_cases hv : isNullValue (evaluateSimple simpleEval value f.valueExpression) = true
    · have hstep : filterStep simpleEval value acc f = acc := by
        simp [filterStep, hv]
      rw [hstep,
        ih acc hnd2 fun p hp f2 hf2 => hdisj p hp f2 (List.mem_cons_of_mem _ hf2)]
      simp [filterValuesSpec, List.filterMap_cons, hv]
    · have hstep : filterStep simpleEval value acc f
          = acc ++ [(f.name, evaluateSimple simpleEval value f.valueExpression)] := by
        simp only [filterStep, hv, if_neg, Bool.not_eq_true]
        exact setKey_eq_append _ _ acc
          fun p hp => hdisj p hp f (List.mem_cons_self _ _)
      rw [hstep, ih _ hnd2 ?disj]
      · simp [filterValuesSpec, List.filterMap_cons, hv]
      case disj =>
        intro p hp f2 hf2
        rcases List.mem_append.mp hp with hmem | hmem
        · exact hdisj p hmem f2 (List.mem_cons_of_mem _ hf2)
        · rcases List.mem_singleton.mp hmem with rfl
          intro hc
          rw [show f.name = f2.name from hc] at hfn
          exact hfn (List.mem_map_of_mem FilterToIndex.name hf2)

/-- When every filter evaluates to null, the filter fold keeps its
accumulator unchanged. -/
theorem filterStep_foldl_allnull (simpleEval : SimpleEvaluator) (value : Value) :
    ∀ (filters : List FilterToIndex) (acc : List (String × Value)),
      (∀ f ∈ filters,
        evaluateSimple simpleEval value f.valueExpression = Value.null) →
      filters.foldl (filterStep simpleEval value) acc = acc := by
  intro filters
  induction filters with
  | nil => intro acc _; rfl
  | cons f fs ih =>
    intro acc hnull
    have hv : isNullValue (evaluateSimple simpleEval value f.valueExpression) = true :=
      (isNullValue_eq_true_iff _).mpr (hnull f (List.mem_cons_self _ _))
    simp only [List.foldl_cons]
    have hstep : filterStep simpleEval value acc f = acc := by
      simp [filterStep, hv]
    rw [hstep, ih acc fun f2 hf2 => hnull f2 (List.mem_cons_of_mem _ hf2)]

/-- C5: `extractFilterValues` never returns an empty mapping; it returns null
when no filter produced a non-null value; and on duplicate-free filter names
it binds each filter name to the first result of evaluating its
`valueExpression` against the value, omitting filters that evaluate to
null/undefined or throw (`filterValuesSpec`). -/
theorem c5_filter_values_shape (simpleEval : SimpleEvaluator) (value : Value)
    (filters : List FilterToIndex) (hne : filters ≠ []) :
    extractFilterValues simpleEval value filters ≠ some [] ∧
    ((∀ f ∈ filters,
        evaluateSimple simpleEval value f.valueExpression = Value.null) →
      extractFilterValues simpleEval value filters = none) ∧
    ((filters.map FilterToIndex.name).Nodup →
      extractFilterValues simpleEval value filters =
        if (filterValuesSpec simpleEval value filters).length = 0 then none
        else some (filterValuesSpec simpleEval value filters)) := by
  have hlen : ¬ filters.length = 0 := by
    simpa [List.length_eq_zero] using hne
  refine ⟨?_, ?_, ?_⟩
  · unfold extractFilterValues
    simp only [hlen, if_false]
    by_cases h : 0 < (filters.foldl (filterStep simpleEval value) []).length
    · simp only [h, if_pos, ne_eq, Option.some.injEq]
      exact List.ne_nil_of_length_pos h
    · simp [h]
  · intro hnull
    unfold extractFilterValues
    simp only [hlen, if_false]
    rw [filterStep_foldl_allnull simpleEval value filters [] hnull]
    simp
  · intro hnd
    unfold extractFilterValues
    simp only [hlen, if_false]
    rw [filterStep_foldl_eq_spec simpleEval value filters [] hnd (by simp)]
    simp only [List.nil_append]
    by_cases h : (filterValuesSpec simpleEval value filters).length = 0
    · simp [h]
    · simp [h, Nat.pos_of_ne_zero h]

/-- Witness for C5: two filters against `{"status": "active"}`, one producing
a value, one producing none. -/
theorem c5_filter_values_shape_witness :
    extractFilterValues
        (fun _ e => if e = "status" then Except.ok [Value.str "active"]
          else Except.ok [])
        (Value.obj [("status", Value.str "active")])
        [⟨"byStatus", "status"⟩, ⟨"byForm", "form"⟩]
      = if (filterValuesSpec
            (fun _ e => if e = "status" then Except.ok [Value.str "active"]
              else Except.ok [])
            (Value.obj [("status", Value.str "active")])
            [⟨"byStatus", "status"⟩, ⟨"byForm", "form"⟩]).length = 0
        then none
        else some (filterValuesSpec
            (fun _ e => if e = "status" then Except.ok [Value.str "active"]
              else Except.ok [])
            (Value.obj [("status", Value.str "active")])
            [⟨"byStatus", "status"⟩, ⟨"byForm", "form"⟩]) :=
  (c5_filter_values_shape
      (fun _ e => if e = "status" then Except.ok [Value.str "active"]
        else Except.ok [])
      (Value.obj [("status", Value.str "active")])
      [⟨"byStatus", "status"⟩, ⟨"byForm", "form"⟩]
      (by simp)).2.2 (by decide)

/-- Generic preservation of an invariant along a left fold. -/
theorem foldl_preserves {σ α : Type} (P : σ → Prop) (f : σ → α → σ)
    (hf : ∀ s a, P s → P (f s a)) :
    ∀ (l : List α) (s : σ), P s → P (l.foldl f s) := by
  intro l
  induction l with
  | nil => intro s h; exact h
  | cons a as ih => intro s h; exact ih _ (hf s a h)

/-- Preservation of an invariant along a left fold when the step property is
only available for elements of the folded list. -/
theorem foldl_preserves_of_mem {σ α : Type} (P : σ → Prop) (f : σ → α → σ) :
    ∀ l : List α, (∀ s, ∀ a ∈ l, P s → P (f s a)) →
      ∀ s, P s → P (l.foldl f s) := by
  intro l
  induction l with
  | nil => intro _ s h; exact h
  | cons a as ih =>
    intro hf s h
    exact ih (fun s2 a2 ha2 h2 => hf s2 a2 (List.mem_cons_of_mem a ha2) h2) _
      (hf s a (List.mem_cons_self a as) h)

/-- Appending an entry with the next sequential id preserves `idsFrom`. -/
theorem idsFrom_append_singleton :
    ∀ (l : List ExpressionToIndex) (n : Nat) (e : ExpressionToIndex),
      idsFrom n l → e.id = "expr_" ++ toString (n + l.length) →
      idsFrom n (l ++ [e]) := by
  intro l
  induction l with
  | nil =>
    intro n e _ hid
    exact ⟨by simpa using hid, trivial⟩
  | cons a as ih =>
    intro n e h hid
    obtain ⟨ha, has⟩ := h
    refine ⟨ha, ih (n + 1) e has ?_⟩
    have harith : n + (a :: as).length = n + 1 + as.length := by
      simp [List.length_cons]; omega
    rw [harith] at hid
    exact hid

/-- Reading `idsFrom` positionally: entry `i` carries id `expr_<n + i>`. -/
theorem idsFrom_get :
    ∀ (l : List ExpressionToIndex) (n : Nat), idsFrom n l →
      ∀ (i : Nat) (h : i < l.length),
        (l.get ⟨i, h⟩).id = "expr_" ++ toString (n + i) := by
  intro l
  induction l with
  | nil => intro n _ i h; exact absurd h (by simp)
  | cons e rest ih =>
    intro n hl i h
    cases i with
    | zero => simpa using hl.1
    | succ j =>
      have hj : j < rest.length := by simpa using h
      have := ih (n + 1) hl.2 j hj
      have harith : n + 1 + j = n + (j + 1) := by omega
      rw [harith] at this
      simpa using this

/-- Pushing an unseen expression string with the next sequential id preserves
the extraction invariant. -/
theorem ExtractInv.push (st : ExtractState) (entry : ExpressionToIndex)
    (hinv : ExtractInv st)
    (hid : entry.id = "expr_" ++ toString st.expressions.length)
    (hnew : st.seen.contains entry.expression = false) :
    ExtractInv ⟨st.expressions ++ [entry], st.seen ++ [entry.expression]⟩ := by
  obtain ⟨hmap, hids, hnd⟩ := hinv
  have hmem : entry.expression ∉ st.seen := by simpa using hnew
  refine ⟨by simp [hmap], ?_, ?_⟩
  · refine idsFrom_append_singleton st.expressions 0 entry hids ?_
    simpa using hid
  · simp [List.nodup_append, hnd, hmem]

/-- `optionsStep` preserves the extraction invariant. -/
theorem optionsStep_inv (s : ExtractState) (v : ViewVariable)
    (h : ExtractInv s) : ExtractInv (optionsStep s v) := by
  unfold optionsStep
  cases hoe : v.optionsExpression with
  | none => exact h
  | some oe =>
    by_cases hc : (oe != "" && !s.seen.contains oe) = true
    · simp only [hc, if_true]
      refine ExtractInv.push s
        { id := "expr_" ++ toString s.expressions.length, expression := oe }
        h rfl ?_
      have := (Bool.and_eq_true _ _).mp hc
      simpa using this.2
    · simp only [hc, if_false]
      exact h

/-- `processBlock` preserves the extraction invariant. -/
theorem processBlock_inv (st : ExtractState) (block : ViewBlock)
    (h : ExtractInv st) : ExtractInv (processBlock st block) := by
  unfold processBlock
  cases hbe : blockExpression? block with
  | none => exact h
  | some expr =>
    by_cases hub : hasUnboundVariables expr = true
    · simp only [hub, if_true]
      exact h
    · simp only [hub, if_false]
      refine foldl_preserves ExtractInv optionsStep optionsStep_inv
        (blockVariables block) _ ?_
      by_cases hs : st.seen.contains expr = true
      · simp only [hs, if_true]
        exact h
      · simp only [hs, if_false]
        exact ExtractInv.push st (mkToIndex st block expr) h rfl
          (by simpa using hs)

/-- The fold of `extractExpressions` maintains the extraction invariant. -/
theorem extractState_inv (registry : ViewRegistry) :
    ExtractInv (registry.views.foldl
      (fun (st : ExtractState) (view : ViewDefinition) =>
        view.blocks.foldl processBlock st)
      { expressions := [], seen := [] }) := by
  refine foldl_preserves ExtractInv _ ?_ registry.views _
    ⟨rfl, trivial, List.nodup_nil⟩
  intro s view hs
  exact foldl_preserves ExtractInv processBlock processBlock_inv view.blocks s hs

/-- C2: the extracted list contains no two entries with the same expression
string; ids are the synthetic `expr_<n>` assigned sequentially in first-seen
(list) order; entries with equal expression strings carry equal ids; and
extraction is a pure function of the registry, so repeated runs produce
identical `(id, expression)` pairs. -/
theorem c2_extraction_dedup_and_ids (registry : ViewRegistry) :
    ((extractExpressions registry).map ExpressionToIndex.expression).Nodup ∧
    idsFrom 0 (extractExpressions registry) ∧
    (∀ e1 ∈ extractExpressions registry, ∀ e2 ∈ extractExpressions registry,
      e1.expression = e2.expression → e1.id = e2.id) ∧
    extractExpressions registry = extractExpressions registry := by
  obtain ⟨hmap, hids, hnd⟩ := extractState_inv registry
  have hnodup :
      ((extractExpressions registry).map ExpressionToIndex.expression).Nodup := by
    unfold extractExpressions
    rw [hmap]
    exact hnd
  refine ⟨hnodup, hids, fun e1 h1 e2 h2 heq => ?_, rfl⟩
  have := List.inj_on_of_nodup_map hnodup h1 h2 heq
  exact congrArg ExpressionToIndex.id this

/-- Witness for C2 at a registry whose two structurally distinct blocks share
the expression `name`. -/
theorem c2_extraction_dedup_and_ids_witness :
    ((extractExpressions c2Registry).map ExpressionToIndex.expression).Nodup ∧
    idsFrom 0 (extractExpressions c2Registry) ∧
    (⟨"expr_0", "name", none, none⟩ : ExpressionToIndex).id = "expr_0" :=
  ⟨(c2_extraction_dedup_and_ids c2Registry).1,
   (c2_extraction_dedup_and_ids c2Registry).2.1,
   (c2_extraction_dedup_and_ids c2Registry).2.2.1
     ⟨"expr_0", "name", none, none⟩ (by decide)
     ⟨"expr_0", "name", none, none⟩ (by decide) rfl⟩

/-- `optionsStep` either leaves the entry list unchanged or appends exactly
the variable's `optionsExpression` with the next sequential id. -/
theorem optionsStep_cases (s : ExtractState) (v : ViewVariable) :
    (optionsStep s v).expressions = s.expressions ∨
    ∃ oe, v.optionsExpression = some oe ∧
      (optionsStep s v).expressions = s.expressions ++
        [{ id := "expr_" ++ toString s.expressions.length, expression := oe }] := by
  cases hoe : v.optionsExpression with
  | none => exact Or.inl (by simp only [optionsStep, hoe])
  | some oe =>
    by_cases hc : (oe != "" && !s.seen.contains oe) = true
    · refine Or.inr ⟨oe, rfl, ?_⟩
      simp only [optionsStep, hoe]
      rw [if_pos hc]
    · refine Or.inl ?_
      simp only [optionsStep, hoe]
      rw [if_neg hc]

/-- The options pass only appends entries; every appended entry has no
filters and its expression string is one of the variables'
`optionsExpression`s. -/
theorem addOptionsExpressions_expressions (vs : List ViewVariable) :
    ∀ s : ExtractState, ∃ suffix,
      (addOptionsExpressions s vs).expressions = s.expressions ++ suffix ∧
      ∀ e ∈ suffix, e.filters = none ∧
        e.expression ∈ vs.filterMap ViewVariable.optionsExpression := by
  induction vs with
  | nil =>
    intro s
    exact ⟨[], by simp [addOptionsExpressions], by simp⟩
  | cons v rest ih =>
    intro s
    have hstep : addOptionsExpressions s (v :: rest)
        = addOptionsExpressions (optionsStep s v) rest := rfl
    rcases ih (optionsStep s v) with ⟨suffix, hsuf, hprop⟩
    have htail : ∀ e ∈ suffix, e.filters = none ∧
        e.expression ∈ (v :: rest).filterMap ViewVariable.optionsExpression := by
      intro e he
      obtain ⟨h1, h2⟩ := hprop e he
      refine ⟨h1, ?_⟩
      cases hv : v.optionsExpression with
      | none => simpa [List.filterMap_cons, hv] using h2
      | some oe2 =>
        simp only [List.filterMap_cons, hv]
        exact List.mem_cons_of_mem _ h2
    rcases optionsStep_cases s v with hcase | ⟨oe, hoe, hcase⟩
    · exact ⟨suffix, by rw [hstep, hsuf, hcase], htail⟩
    · refine ⟨(⟨"expr_" ++ toString s.expressions.length, oe, none, none⟩ :
          ExpressionToIndex) :: suffix, ?_, ?_⟩
      · rw [hstep, hsuf, hcase]
        simp
      · intro e he
        rcases List.mem_cons.mp he with rfl | hmem
        · exact ⟨rfl, by simp [List.filterMap_cons, hoe]⟩
        · exact htail e hmem

/-- `processBlock` only appends entries; every appended entry is either free
of unbound variables (it is the block's own expression, which passed the
filter) or one of the block's variables' `optionsExpression`s. -/
theorem processBlock_new_entries (st : ExtractState) (block : ViewBlock) :
    ∃ suffix, (processBlock st block).expressions = st.expressions ++ suffix ∧
      ∀ e ∈ suffix,
        hasUnboundVariables e.expression = false ∨
        e.expression ∈
          (blockVariables block).filterMap ViewVariable.optionsExpression := by
  cases hbe : blockExpression? block with
  | none =>
    refine ⟨[], ?_, by simp⟩
    unfold processBlock
    rw [hbe]
    simp
  | some expr =>
    by_cases hub : hasUnboundVariables expr = true
    · refine ⟨[], ?_, by simp⟩
      unfold processBlock
      rw [hbe]
      simp [hub]
    · have hub2 : hasUnboundVariables expr = false := by simpa using hub
      by_cases hseen : st.seen.contains expr = true
      · have hseen2 : expr ∈ st.seen := by simpa using hseen
        have hpb : processBlock st block
            = addOptionsExpressions st (blockVariables block) := by
          unfold processBlock
          rw [hbe]
          simp [hub, hseen2]
        rcases addOptionsExpressions_expressions (blockVariables block) st
          with ⟨suffix, hs, hp⟩
        exact ⟨suffix, by rw [hpb, hs], fun e he => Or.inr (hp e he).2⟩
      · have hseen2 : expr ∉ st.seen := by simpa using hseen
        have hpb : processBlock st block
            = addOptionsExpressions
                ⟨st.expressions ++ [mkToIndex st block expr], st.seen ++ [expr]⟩
                (blockVariables block) := by
          unfold processBlock
          rw [hbe]
          simp [hub, hseen2]
        rcases addOptionsExpressions_expressions (blockVariables block)
          ⟨st.expressions ++ [mkToIndex st block expr], st.seen ++ [expr]⟩
          with ⟨suffix, hs, hp⟩
        refine ⟨mkToIndex st block expr :: suffix, ?_, ?_⟩
        · rw [hpb, hs]
          simp
        · intro e he
          rcases List.mem_cons.mp he with rfl | hmem
          · exact Or.inl hub2
          · exact Or.inr (hp e hmem).2

/-- C3 counterexample: the registry `c3Registry` has a variable whose
`optionsExpression` references the unbound external variable `%st`, and that
expression string does appear in the output of `extractExpressions` (and
would hence be written to the expressions table). -/
theorem c3_counterexample_options_unbound :
    (extractExpressions c3Registry).map ExpressionToIndex.expression
        = ["name", "%st.distinct()"] ∧
    hasUnboundVariables "%st.distinct()" = true := ⟨rfl, rfl⟩

/-- C3 amended: only expressions taken from a block's own `expression` field
are screened by `hasUnboundVariables`; every extracted entry either contains
no unbound variable or is the verbatim `optionsExpression` of some variable
of some block of the registry (options expressions are not screened). -/
theorem c3_amended_unbound_screening (registry : ViewRegistry) :
    ∀ e ∈ extractExpressions registry,
      hasUnboundVariables e.expression = false ∨
      e.expression ∈ registryOptionsExpressions registry := by
  have main : ∀ e ∈ (registry.views.foldl
      (fun (st : ExtractState) (view : ViewDefinition) =>
        view.blocks.foldl processBlock st)
      { expressions := [], seen := [] }).expressions,
      hasUnboundVariables e.expression = false ∨
      e.expression ∈ registryOptionsExpressions registry := by
    refine foldl_preserves_of_mem
      (fun st : ExtractState => ∀ e ∈ st.expressions,
        hasUnboundVariables e.expression = false ∨
        e.expression ∈ registryOptionsExpressions registry)
      _ registry.views ?_ _ (by simp)
    intro s view hview hs
    refine foldl_preserves_of_mem
      (fun st : ExtractState => ∀ e ∈ st.expressions,
        hasUnboundVariables e.expression = false ∨
        e.expression ∈ registryOptionsExpressions registry)
      processBlock view.blocks ?_ s hs
    intro s2 block hblock hs2 e he
    rcases processBlock_new_entries s2 block with ⟨suffix, heq, hprop⟩
    rw [heq] at he
    rcases List.mem_append.mp he with hmem | hmem
    · exact hs2 e hmem
    · rcases hprop e hmem with hub | hopt
      · exact Or.inl hub
      · refine Or.inr (List.mem_flatMap.mpr ⟨view, hview, ?_⟩)
        exact List.mem_flatMap.mpr ⟨block, hblock, hopt⟩
  exact main

/-- Witness for C3 amended at `c3Registry` and its first extracted entry. -/
theorem c3_amended_unbound_screening_witness :
    hasUnboundVariables
        (⟨"expr_0", "name", none, none⟩ : ExpressionToIndex).expression = false ∨
    (⟨"expr_0", "name", none, none⟩ : ExpressionToIndex).expression ∈
      registryOptionsExpressions c3Registry :=
  c3_amended_unbound_screening c3Registry
    ⟨"expr_0", "name", none, none⟩ (by decide)

/-- Elements of the accumulator survive an append-only filtered fold. -/
theorem foldl_filter_append_acc_mem {α β : Type} (p : α → Bool) (g : α → β) :
    ∀ (vs : List α) (acc : List β) (b : β), b ∈ acc →
      b ∈ vs.foldl (fun fs x => if p x then fs ++ [g x] else fs) acc := by
  intro vs
  induction vs with
  | nil => intro acc b hb; exact hb
  | cons x xs ih =>
    intro acc b hb
    simp only [List.foldl_cons]
    refine ih _ b ?_
    show b ∈ (if p x = true then acc ++ [g x] else acc)
    by_cases hp : p x = true
    · rw [if_pos hp]
      exact List.mem_append.mpr (Or.inl hb)
    · rwa [if_neg hp]

/-- An append-only filtered fold contains the image of every element of the
folded list that passes the filter. -/
theorem foldl_filter_append_mem {α β : Type} (p : α → Bool) (g : α → β) :
    ∀ (vs : List α) (acc : List β) (v : α), v ∈ vs → p v = true →
      g v ∈ vs.foldl (fun fs x => if p x then fs ++ [g x] else fs) acc := by
  intro vs
  induction vs with
  | nil => intro acc v hv _; exact absurd hv (List.not_mem_nil v)
  | cons x xs ih =>
    intro acc v hv hp
    simp only [List.foldl_cons]
    rcases List.mem_cons.mp hv with rfl | hmem
    · refine foldl_filter_append_acc_mem p g xs _ (g v) ?_
      show g v ∈ (if p v = true then acc ++ [g v] else acc)
      rw [if_pos hp]
      exact List.mem_append.mpr (Or.inr (List.mem_singleton.mpr rfl))
    · exact ih _ v hmem hp

/-- `blockFilters` contains an entry for every variable of kind `filter`
with a truthy `valueExpression`. -/
theorem blockFilters_complete (block : ViewBlock) (v : ViewVariable)
    (hv : v ∈ blockVariables block) (ht : v.type = VarType.filter)
    (htr : optStrTruthy v.valueExpression = true) :
    (⟨v.name, v.valueExpression.getD ""⟩ : FilterToIndex) ∈
      blockFilters block := by
  unfold blockFilters
  refine foldl_filter_append_mem
    (fun v => (v.type == VarType.filter) && optStrTruthy v.valueExpression)
    (fun v => (⟨v.name, v.valueExpression.getD ""⟩ : FilterToIndex))
    (blockVariables block) [] v hv ?_
  simp [ht, htr]

/-- A `blockFilters` member survives into the `filters` field of the entry
built by `mkToIndex`. -/
theorem mkToIndex_filters_mem (st : ExtractState) (block : ViewBlock)
    (expr : String) (f : FilterToIndex) (hf : f ∈ blockFilters block) :
    f ∈ (mkToIndex st block expr).filters.getD [] := by
  have hpos : 0 < (blockFilters block).length :=
    List.length_pos.mpr (List.ne_nil_of_mem hf)
  have hfil : (mkToIndex st block expr).filters
      = if 0 < (blockFilters block).length then some (blockFilters block)
        else none := rfl
  rw [hfil, if_pos hpos]
  simpa using hf

/-- C4 counterexample: in `c4Registry` the second block (present in the
registry) carries a filter variable with a `valueExpression` on expression
`name`, yet no extracted entry carries any filters — the owning
`ExpressionToIndex` was created at the first block, which has none. -/
theorem c4_counterexample_later_filters_lost :
    (∀ e ∈ extractExpressions c4Registry, e.filters = none) ∧
    (⟨"f", VarType.filter, none, some "status", none⟩ : ViewVariable) ∈
      blockVariables (ViewBlock.fhirpathList "name"
        [⟨"f", VarType.filter, none, some "status", none⟩] "t") ∧
    ViewBlock.fhirpathList "name"
        [⟨"f", VarType.filter, none, some "status", none⟩] "t" ∈
      c4Registry.views.flatMap ViewDefinition.blocks :=
  ⟨by decide, by decide, by decide⟩

/-- C4 amended: filter variables are attached only at the block where the
expression string is first seen — there, every variable of kind `filter`
with a truthy `valueExpression` appears as a `{name, valueExpression}` entry
in the owning `ExpressionToIndex`'s filters; a block whose expression string
was already seen contributes no filters. -/
theorem c4_filters_from_first_seen_block (st : ExtractState)
    (block : ViewBlock) (expr : String)
    (hexpr : blockExpression? block = some expr)
    (hub : hasUnboundVariables expr = false) :
    (st.seen.contains expr = false →
      ∃ rest, (processBlock st block).expressions
          = st.expressions ++ mkToIndex st block expr :: rest ∧
        ∀ v ∈ blockVariables block, v.type = VarType.filter →
          optStrTruthy v.valueExpression = true →
          (⟨v.name, v.valueExpression.getD ""⟩ : FilterToIndex) ∈
            (mkToIndex st block expr).filters.getD []) ∧
    (st.seen.contains expr = true →
      ∃ rest, (processBlock st block).expressions = st.expressions ++ rest ∧
        ∀ e ∈ rest, e.filters = none) := by
  constructor
  · intro hseen
    have hseen2 : expr ∉ st.seen := by simpa using hseen
    have hpb : processBlock st block
        = addOptionsExpressions
            ⟨st.expressions ++ [mkToIndex st block expr], st.seen ++ [expr]⟩
            (blockVariables block) := by
      unfold processBlock
      rw [hexpr]
      simp [hub, hseen2]
    rcases addOptionsExpressions_expressions (blockVariables block)
      ⟨st.expressions ++ [mkToIndex st block expr], st.seen ++ [expr]⟩
      with ⟨suffix, hs, _⟩
    refine ⟨suffix, ?_, ?_⟩
    · rw [hpb, hs]
      simp
    · intro v hv ht htr
      exact mkToIndex_filters_mem st block expr _
        (blockFilters_complete block v hv ht htr)
  · intro hseen
    have hseen2 : expr ∈ st.seen := by simpa using hseen
    have hpb : processBlock st block
        = addOptionsExpressions st (blockVariables block) := by
      unfold processBlock
      rw [hexpr]
      simp [hub, hseen2]
    rcases addOptionsExpressions_expressions (blockVariables block) st
      with ⟨suffix, hs, hprop⟩
    exact ⟨suffix, by rw [hpb, hs], fun e he => (hprop e he).1⟩

/-- Witness for C4 amended: the filter-carrying block of `c4Registry`
processed from the empty state (so its expression is first seen there). -/
theorem c4_filters_from_first_seen_block_witness :
    ∃ rest, (processBlock ⟨[], []⟩ (ViewBlock.fhirpathList "name"
        [⟨"f", VarType.filter, none, some "status", none⟩] "t")).expressions
        = [] ++ mkToIndex ⟨[], []⟩ (ViewBlock.fhirpathList "name"
            [⟨"f", VarType.filter, none, some "status", none⟩] "t") "name"
          :: rest ∧
      ∀ v ∈ blockVariables (ViewBlock.fhirpathList "name"
          [⟨"f", VarType.filter, none, some "status", none⟩] "t"),
        v.type = VarType.filter →
        optStrTruthy v.valueExpression = true →
        (⟨v.name, v.valueExpression.getD ""⟩ : FilterToIndex) ∈
          (mkToIndex ⟨[], []⟩ (ViewBlock.fhirpathList "name"
            [⟨"f", VarType.filter, none, some "status", none⟩] "t")
            "name").filters.getD [] :=
  (c4_filters_from_first_seen_block ⟨[], []⟩
    (ViewBlock.fhirpathList "name"
      [⟨"f", VarType.filter, none, some "status", none⟩] "t")
    "name" rfl rfl).1 rfl

end Indexer
